import Mathlib

/-!
# TorchArrow native module (`torcharrow/atab/velox/lib.cpp`)

A shallow embedding of the binding layer `lib.cpp`: the classes it registers,
the methods bound on each of them, the `Column` factory overloads, the
argument conversions performed by the `append` lambdas and the decoders used
by `__getitem__`.  The column engine that the bindings delegate to
(`column.h`) is not part of the visible source; it is modelled from the
specification and marked as such.
-/

namespace TorchArrow

/-! ## Failures -/

/-- Failure kinds.  `castError` is the failure to convert the argument of an
`append` (by `py::cast<T>` inside the lambda, or because no `append` overload
takes it), `unsupportedKind` the failure of overload resolution when no
registered `Column` overload accepts the argument; the remaining ones are the
error kinds of the column engine. -/
inductive Err where
  | outOfRange
  | notAppendable
  | decodeError
  | castError
  | unsupportedKind
  deriving DecidableEq, Repr

deriving instance DecidableEq for Except

/-! ## Column engine -/

/-- Modelled from the spec: the column classes of `column.h` (`BaseColumn` and
its subclasses) are missing.  A column is a view window `offset`, `length` into
underlying storage `delegate` with a validity bitmap `nulls` (one bit per
storage position, `true` = null) and a null counter; `owning` tells the root
column from a slice.  The storage type `S` is what distinguishes the column
kinds. -/
structure BaseColumn (S : Type) where
  delegate : S
  nulls : List Bool
  offset : Nat
  length : Nat
  nullCount : Nat
  owning : Bool
  deriving DecidableEq, Repr

namespace BaseColumn

variable {S : Type}

/-- Modelled from the spec: `BaseColumn::getLength` is missing. -/
def getLength (self : BaseColumn S) : Nat := self.length

/-- Modelled from the spec: `BaseColumn::getOffset` is missing. -/
def getOffset (self : BaseColumn S) : Nat := self.offset

/-- Modelled from the spec: `BaseColumn::getNullCount` is missing; it reports
the counter kept by the column. -/
def getNullCount (self : BaseColumn S) : Nat := self.nullCount

/-- Modelled from the spec: `BaseColumn::isNullAt` is missing; it reads the
validity bit of logical position `i`, and fails with `OutOfRange` when
`i ≥ length`. -/
def isNullAt (self : BaseColumn S) (i : Nat) : Except Err Bool :=
  if i < self.length then .ok ((self.nulls.drop (self.offset + i)).headD false)
  else .error .outOfRange

/-- Number of null bits among the storage positions `[off, off + len)`. -/
def countNulls (nulls : List Bool) (off len : Nat) : Nat :=
  ((nulls.drop off).take len).count true

/-- Modelled from the spec: the `slice` member of the column classes is
missing.  It returns a view sharing storage and bitmap, and fails when
`offset + length` exceeds the current length. -/
def slice (self : BaseColumn S) (offset length : Nat) : Except Err (BaseColumn S) :=
  if offset + length ≤ self.length then
    .ok { delegate := self.delegate
          nulls := self.nulls
          offset := self.offset + offset
          length := length
          nullCount := countNulls self.nulls (self.offset + offset) length
          owning := false }
  else .error .outOfRange

/-- Modelled from the spec: the shared part of every `append` / `appendNull`
member of the missing column classes.  The new element goes to the slot at the
current length: the storage becomes `store`, the validity bit `isNull` is
pushed, and a null is counted.  Only the owning column may grow
(`NotAppendable` on a slice). -/
def extend (self : BaseColumn S) (store : S) (isNull : Bool) : Except Err (BaseColumn S) :=
  if self.owning then
    .ok { self with
          delegate := store
          nulls := self.nulls ++ [isNull]
          length := self.length + 1
          nullCount := self.nullCount + (if isNull then 1 else 0) }
  else .error .notAppendable

/-- Number of logical positions of the column that read as null through
`isNullAt`. -/
def nullPositions (self : BaseColumn S) : Nat :=
  ((List.range self.length).filter (fun i =>
    match self.isNullAt i with
    | .ok true => true
    | _ => false)).length

end BaseColumn

/-- Modelled from the spec: `SimpleColumn<T>` of `column.h` is missing; its
storage is the contiguous buffer of element slots. -/
abbrev SimpleColumn (T : Type) := BaseColumn (List T)

namespace SimpleColumn

variable {T : Type}

/-- Modelled from the spec: the default constructor `SimpleColumn<T>()` is
missing; it makes an empty owning column. -/
def new : SimpleColumn T :=
  { delegate := [], nulls := [], offset := 0, length := 0, nullCount := 0, owning := true }

/-- Modelled from the spec: `SimpleColumn<T>::append` is missing.  It writes
the value at the current length and marks it non-null. -/
def append (self : SimpleColumn T) (value : T) : Except Err (SimpleColumn T) :=
  self.extend (self.delegate ++ [value]) false

/-- Modelled from the spec: `SimpleColumn<T>::appendNull` is missing.  It
reserves a slot (holding a placeholder) and marks it null. -/
def appendNull [Inhabited T] (self : SimpleColumn T) : Except Err (SimpleColumn T) :=
  self.extend (self.delegate ++ [default]) true

/-- Modelled from the spec: `SimpleColumn<T>::valueAt` is missing.  It fails
with `OutOfRange` when `i ≥ length` and otherwise returns the stored slot (the
placeholder at a null position). -/
def valueAt (self : SimpleColumn T) (i : Nat) : Except Err T :=
  if i < self.length then
    match (self.delegate.drop (self.offset + i)).head? with
    | some v => .ok v
    | none => .error .outOfRange
  else .error .outOfRange

/-- Append a list of optional elements, one slot each (`none` is a null
element). -/
def appendAll [Inhabited T] (self : SimpleColumn T) : List (Option T) → Except Err (SimpleColumn T)
  | [] => .ok self
  | some v :: rest => do
    let c ← self.append v
    appendAll c rest
  | none :: rest => do
    let c ← self.appendNull
    appendAll c rest

end SimpleColumn

/-! ## Type descriptors -/

/-- The scalar kinds for which `lib.cpp` instantiates `declareSimpleType`. -/
inductive ScalarKind where
  | BIGINT | INTEGER | SMALLINT | TINYINT | BOOLEAN | REAL | DOUBLE | VARCHAR
  deriving DecidableEq, Repr

/-- Tag of a type descriptor: the eleven kinds bound by `lib.cpp`, and `OTHER`
for any kind of the engine for which the module registers no class. -/
inductive TypeKind where
  | BIGINT | INTEGER | SMALLINT | TINYINT | BOOLEAN | REAL | DOUBLE | VARCHAR
  | ARRAY | MAP | ROW
  | OTHER (tag : Nat)
  deriving DecidableEq, Repr

/-- A type descriptor as the module's type classes build it: `py::init()` for
the scalar kinds, `py::init<TypePtr>()` for `ARRAY`,
`py::init<TypePtr, TypePtr>()` for `MAP`, and names plus child types for `ROW`.
`other` is a descriptor of the unbound base class `Type`. -/
inductive TypePtr where
  | scalar (k : ScalarKind)
  | array (elementType : TypePtr)
  | map (keyType valueType : TypePtr)
  | row (names : List String) (children : List TypePtr)
  | other (tag : Nat)

namespace ScalarKind

/-- The tag of a scalar kind. -/
def kind : ScalarKind → TypeKind
  | BIGINT => .BIGINT | INTEGER => .INTEGER | SMALLINT => .SMALLINT | TINYINT => .TINYINT
  | BOOLEAN => .BOOLEAN | REAL => .REAL | DOUBLE => .DOUBLE | VARCHAR => .VARCHAR

end ScalarKind

namespace TypePtr

/-- The tag of a descriptor (`Type::kind`). -/
def kind : TypePtr → TypeKind
  | scalar k => k.kind
  | array _ => .ARRAY
  | map _ _ => .MAP
  | row _ _ => .ROW
  | other tag => .OTHER tag

/-- Child descriptors of a composite descriptor. -/
def childTypes : TypePtr → List TypePtr
  | array e => [e]
  | map k v => [k, v]
  | row _ cs => cs
  | _ => []

end TypePtr

/-- The eleven kinds for which a column class is registered. -/
def TypeKind.supported : TypeKind → Bool
  | .OTHER _ => false
  | _ => true

/-! ## Native element types -/

/-- One byte. -/
abbrev Byte := Fin 256

/-- A single-precision element, carried by its bit pattern (no arithmetic on
it is modelled). -/
structure F32 where
  bits : Nat
  deriving DecidableEq, Repr

/-- A double-precision element, carried by its bit pattern (no arithmetic on
it is modelled). -/
structure F64 where
  bits : Nat
  deriving DecidableEq, Repr

/-- `TypeTraits<kind>::NativeType`: the integer kinds hold machine integers
(here: integers inside the signed range of the kind, which `py::cast`
guarantees), `VARCHAR` holds the bytes of a `StringView`. -/
def NativeType : ScalarKind → Type
  | .BIGINT | .INTEGER | .SMALLINT | .TINYINT => Int
  | .BOOLEAN => Bool
  | .REAL => F32
  | .DOUBLE => F64
  | .VARCHAR => List Byte

instance (k : ScalarKind) : Inhabited (NativeType k) := by
  cases k
  · exact ⟨(0 : Int)⟩
  · exact ⟨(0 : Int)⟩
  · exact ⟨(0 : Int)⟩
  · exact ⟨(0 : Int)⟩
  · exact ⟨false⟩
  · exact ⟨F32.mk 0⟩
  · exact ⟨F64.mk 0⟩
  · exact ⟨([] : List Byte)⟩

/-- A dynamically typed element, for the children of composite columns made by
the factory. -/
inductive Value where
  | int (v : Int)
  | bool (b : Bool)
  | real (v : F32)
  | double (v : F64)
  | text (bytes : List Byte)
  | array (elements : List (Option Value))
  | map (entries : List (Value × Option Value))
  | row (fields : List (Option Value))

instance : Inhabited Value := ⟨.int 0⟩

/-! ## Composite columns -/

/-- Modelled from the spec: storage of the missing `ArrayColumn`: the child
column holding the concatenated elements and the offsets table mapping an
outer index to its `[start, end)` range in the child. -/
structure ArrayStorage (V : Type) where
  type : TypePtr
  offsets : List (Nat × Nat)
  elements : SimpleColumn V

/-- Modelled from the spec: `ArrayColumn` of `column.h` is missing. -/
abbrev ArrayColumn (V : Type) := BaseColumn (ArrayStorage V)

namespace ArrayColumn

variable {V : Type}

/-- Modelled from the spec: the constructor `ArrayColumn(type)` is missing; it
makes an empty owning column that keeps the descriptor. -/
def new (type : TypePtr) : ArrayColumn V :=
  { delegate := { type := type, offsets := [], elements := SimpleColumn.new }
    nulls := [], offset := 0, length := 0, nullCount := 0, owning := true }

/-- Modelled from the spec: `ArrayColumn::appendElement` is missing.  The
elements go to the end of the child column and the new outer position gets
their range. -/
def appendElement [Inhabited V] (self : ArrayColumn V) (element : List (Option V)) :
    Except Err (ArrayColumn V) := do
  let child ← self.delegate.elements.appendAll element
  self.extend
    { self.delegate with
      offsets := self.delegate.offsets ++
        [(self.delegate.elements.length, self.delegate.elements.length + element.length)]
      elements := child } false

/-- Modelled from the spec: `ArrayColumn::appendNull` is missing; the outer
position is null and has an empty range. -/
def appendNull (self : ArrayColumn V) : Except Err (ArrayColumn V) :=
  self.extend
    { self.delegate with
      offsets := self.delegate.offsets ++
        [(self.delegate.elements.length, self.delegate.elements.length)] } true

/-- Modelled from the spec: the `[start, end)` range of outer position `i`
in the child column (`OutOfRange` when `i ≥ length`). -/
def offsetAt (self : ArrayColumn V) (i : Nat) : Except Err (Nat × Nat) :=
  if i < self.length then
    match (self.delegate.offsets.drop (self.offset + i)).head? with
    | some r => .ok r
    | none => .error .outOfRange
  else .error .outOfRange

/-- Modelled from the spec: `ArrayColumn::valueAt` is missing; it returns the
slice of the child column for the range of position `i`. -/
def valueAt (self : ArrayColumn V) (i : Nat) : Except Err (SimpleColumn V) := do
  let r ← self.offsetAt i
  self.delegate.elements.slice r.1 (r.2 - r.1)

/-- The child column (`elements`). -/
def child (self : ArrayColumn V) : SimpleColumn V := self.delegate.elements

/-- A sequence of calls on an array column: `some e` is `appendElement(e)`,
`none` is `appendNull()`. -/
def appendAll [Inhabited V] (self : ArrayColumn V) :
    List (Option (List (Option V))) → Except Err (ArrayColumn V)
  | [] => .ok self
  | some e :: rest => do
    let c ← self.appendElement e
    appendAll c rest
  | none :: rest => do
    let c ← self.appendNull
    appendAll c rest

end ArrayColumn

/-- Modelled from the spec: storage of the missing `MapColumn`: the keys and
values child columns and the offsets table of the key/value runs. -/
structure MapStorage (K V : Type) where
  type : TypePtr
  offsets : List (Nat × Nat)
  keys : SimpleColumn K
  values : SimpleColumn V

/-- Modelled from the spec: `MapColumn` of `column.h` is missing. -/
abbrev MapColumn (K V : Type) := BaseColumn (MapStorage K V)

namespace MapColumn

variable {K V : Type}

/-- Modelled from the spec: the constructor `MapColumn(type)` is missing. -/
def new (type : TypePtr) : MapColumn K V :=
  { delegate := { type := type, offsets := [], keys := SimpleColumn.new, values := SimpleColumn.new }
    nulls := [], offset := 0, length := 0, nullCount := 0, owning := true }

/-- Modelled from the spec: `MapColumn::appendElement` is missing; keys and
values are pushed to the two children in lockstep and the new outer position
gets their range. -/
def appendElement [Inhabited K] [Inhabited V] (self : MapColumn K V)
    (entries : List (K × Option V)) : Except Err (MapColumn K V) := do
  let ks ← self.delegate.keys.appendAll (entries.map (fun e => some e.1))
  let vs ← self.delegate.values.appendAll (entries.map (fun e => e.2))
  self.extend
    { self.delegate with
      offsets := self.delegate.offsets ++
        [(self.delegate.keys.length, self.delegate.keys.length + entries.length)]
      keys := ks
      values := vs } false

/-- Modelled from the spec: `MapColumn::appendNull` is missing. -/
def appendNull (self : MapColumn K V) : Except Err (MapColumn K V) :=
  self.extend
    { self.delegate with
      offsets := self.delegate.offsets ++
        [(self.delegate.keys.length, self.delegate.keys.length)] } true

/-- A sequence of calls on a map column: `some e` is `appendElement(e)`,
`none` is `appendNull()`. -/
def appendAll [Inhabited K] [Inhabited V] (self : MapColumn K V) :
    List (Option (List (K × Option V))) → Except Err (MapColumn K V)
  | [] => .ok self
  | some e :: rest => do
    let c ← self.appendElement e
    appendAll c rest
  | none :: rest => do
    let c ← self.appendNull
    appendAll c rest

end MapColumn

/-- Modelled from the spec: storage of the missing `RowColumn`: one child slot
per field of the descriptor, filled by `setChild`. -/
structure RowStorage (C : Type) where
  type : TypePtr
  children : List (Option C)

/-- Modelled from the spec: `RowColumn` of `column.h` is missing. -/
abbrev RowColumn (C : Type) := BaseColumn (RowStorage C)

/-- Modelled from the spec: the constructor `RowColumn(type)` is missing; it
makes an empty owning column with one (unset) child slot per field. -/
def RowColumn.new {C : Type} (type : TypePtr) : RowColumn C :=
  { delegate := { type := type, children := type.childTypes.map (fun _ => none) }
    nulls := [], offset := 0, length := 0, nullCount := 0, owning := true }

/-! ## Host values and conversions -/

/-- A value of the host runtime, as far as the bindings produce or accept it;
a host float is a double-precision number. -/
inductive PyObject where
  | int (v : Int)
  | bool (b : Bool)
  | float (v : F64)
  | str (codePoints : List Nat)
  | bytes (data : List Byte)
  deriving DecidableEq, Repr

/-- A floating-point datum taken apart: not a number, an infinity, or the
finite value `± m * 2 ^ e`. -/
inductive Unpacked where
  | nan
  | inf (neg : Bool)
  | finite (neg : Bool) (m : Nat) (e : Int)
  deriving DecidableEq, Repr

/-- Number of binary digits of `m` (`fuel` bounds the count). -/
def bitLength : Nat → Nat → Nat
  | 0, _ => 0
  | fuel + 1, m => if m = 0 then 0 else bitLength fuel (m / 2) + 1

/-- Shift `m` right by `k` bits, rounding to nearest, ties to even. -/
def roundShift (m k : Nat) : Nat :=
  let n0 := m / 2 ^ k
  let r := m % 2 ^ k
  if 2 * r > 2 ^ k ∨ (2 * r = 2 ^ k ∧ n0 % 2 = 1) then n0 + 1 else n0

/-- The bits (sign excluded) of `m * 2 ^ e` rounded to nearest, ties to even,
in the binary format with `ebits` exponent bits and `mbits` fraction bits; a
value too large for the format gives the bits of infinity. -/
def roundBits (ebits mbits : Nat) (m : Nat) (e : Int) : Nat :=
  if m = 0 then 0
  else
    let qmin : Int := 2 - (2 : Int) ^ (ebits - 1) - mbits
    let q : Int := max (bitLength m m - 1 + e - mbits) qmin
    let n : Nat := if q ≤ e then m * 2 ^ (e - q).toNat else roundShift m (q - e).toNat
    let bits := (q - qmin).toNat * 2 ^ mbits + n
    let inf := (2 ^ ebits - 1) * 2 ^ mbits
    if inf ≤ bits then inf else bits

/-- The sign bit of the format. -/
def signBit (ebits mbits : Nat) (neg : Bool) : Nat :=
  if neg then 2 ^ (ebits + mbits) else 0

/-- Take the bits of a datum of the format apart. -/
def unpack (ebits mbits : Nat) (bits : Nat) : Unpacked :=
  let neg : Bool := bits / 2 ^ (ebits + mbits) % 2 == 1
  let ex := bits / 2 ^ mbits % 2 ^ ebits
  let f := bits % 2 ^ mbits
  if ex = 2 ^ ebits - 1 then (if f = 0 then .inf neg else .nan)
  else if ex = 0 then .finite neg f (2 - (2 : Int) ^ (ebits - 1) - mbits)
  else .finite neg (2 ^ mbits + f) (ex + 1 - (2 : Int) ^ (ebits - 1) - mbits)

/-- The bits of the datum of the format nearest to the given one (a NaN becomes
the quiet NaN of the format; its payload is not modelled). -/
def pack (ebits mbits : Nat) : Unpacked → Nat
  | .nan => (2 ^ ebits - 1) * 2 ^ mbits + 2 ^ (mbits - 1)
  | .inf neg => signBit ebits mbits neg + (2 ^ ebits - 1) * 2 ^ mbits
  | .finite neg m e => signBit ebits mbits neg + roundBits ebits mbits m e

/-- The conversion `(float) x` of a double: the nearest single-precision
number, an infinity beyond the single-precision range. -/
def F64.toFloat (x : F64) : F32 := ⟨pack 8 23 (unpack 11 52 x.bits)⟩

/-- The conversion `(double) x` of a single-precision number, which is exact. -/
def F32.toDouble (x : F32) : F64 := ⟨pack 11 52 (unpack 8 23 x.bits)⟩

/-- The conversion of a host integer to a double (`PyFloat_AsDouble`): the
nearest double, or no value when the integer is too large for a double. -/
def F64.ofInt (n : Int) : Option F64 :=
  let bits := roundBits 11 52 n.natAbs 0
  if (2 ^ 11 - 1) * 2 ^ 52 ≤ bits then none
  else some ⟨signBit 11 52 (decide (n < 0)) + bits⟩

/-- Build a byte from a number below 256. -/
def byte (n : Nat) : Byte := Fin.ofNat n

/-- A continuation byte `10xxxxxx`. -/
def isCont (b : Byte) : Bool := 0x80 ≤ b.val && b.val < 0xC0

/-- Strict UTF-8 encoding of one code point; surrogates and values above
`0x10FFFF` have no encoding. -/
def encodeCodePoint (cp : Nat) : Option (List Byte) :=
  if cp < 0x80 then some [byte cp]
  else if cp < 0x800 then some [byte (0xC0 + cp / 64), byte (0x80 + cp % 64)]
  else if cp < 0x10000 then
    if 0xD800 ≤ cp ∧ cp < 0xE000 then none
    else some [byte (0xE0 + cp / 4096), byte (0x80 + cp / 64 % 64), byte (0x80 + cp % 64)]
  else if cp < 0x110000 then
    some [byte (0xF0 + cp / 262144), byte (0x80 + cp / 4096 % 64),
          byte (0x80 + cp / 64 % 64), byte (0x80 + cp % 64)]
  else none

/-- Strict UTF-8 encoding of a text (the conversion of a host `str` to
`std::string`). -/
def encodeUTF8 : List Nat → Option (List Byte)
  | [] => some []
  | cp :: rest =>
    match encodeCodePoint cp, encodeUTF8 rest with
    | some bs, some r => some (bs ++ r)
    | _, _ => none

/-- Code point of a two-byte sequence. -/
def cp2 (b0 b1 : Byte) : Nat := (b0.val - 0xC0) * 64 + (b1.val - 0x80)

/-- Code point of a three-byte sequence. -/
def cp3 (b0 b1 b2 : Byte) : Nat :=
  (b0.val - 0xE0) * 4096 + (b1.val - 0x80) * 64 + (b2.val - 0x80)

/-- Code point of a four-byte sequence. -/
def cp4 (b0 b1 b2 b3 : Byte) : Nat :=
  (b0.val - 0xF0) * 262144 + (b1.val - 0x80) * 4096 + (b2.val - 0x80) * 64 + (b3.val - 0x80)

/-- A well-formed two-byte sequence (not overlong). -/
def ok2 (b0 b1 : Byte) : Bool :=
  0xC0 ≤ b0.val && b0.val < 0xE0 && isCont b1 && 0x80 ≤ cp2 b0 b1

/-- A well-formed three-byte sequence (not overlong, not a surrogate). -/
def ok3 (b0 b1 b2 : Byte) : Bool :=
  0xE0 ≤ b0.val && b0.val < 0xF0 && isCont b1 && isCont b2 && 0x800 ≤ cp3 b0 b1 b2
    && !(0xD800 ≤ cp3 b0 b1 b2 && cp3 b0 b1 b2 < 0xE000)

/-- A well-formed four-byte sequence (not overlong, at most `0x10FFFF`). -/
def ok4 (b0 b1 b2 b3 : Byte) : Bool :=
  0xF0 ≤ b0.val && b0.val < 0xF8 && isCont b1 && isCont b2 && isCont b3
    && 0x10000 ≤ cp4 b0 b1 b2 b3 && cp4 b0 b1 b2 b3 < 0x110000

/-- Strict UTF-8 decoding, the behaviour of
`PyUnicode_DecodeUTF8(data, size, nullptr)`: the code points of the text, or
`none` when the bytes are not well-formed UTF-8. -/
def decodeUTF8 : List Byte → Option (List Nat)
  | [] => some []
  | b0 :: r0 =>
    if b0.val < 0x80 then (decodeUTF8 r0).map (fun s => b0.val :: s)
    else
      match r0 with
      | [] => none
      | b1 :: r1 =>
        if ok2 b0 b1 then (decodeUTF8 r1).map (fun s => cp2 b0 b1 :: s)
        else
          match r1 with
          | [] => none
          | b2 :: r2 =>
            if ok3 b0 b1 b2 then (decodeUTF8 r2).map (fun s => cp3 b0 b1 b2 :: s)
            else
              match r2 with
              | [] => none
              | b3 :: r3 =>
                if ok4 b0 b1 b2 b3 then (decodeUTF8 r3).map (fun s => cp4 b0 b1 b2 b3 :: s)
                else none

/-- The element widths of the integer kinds (`int64_t`, `int32_t`, `int16_t`,
`int8_t` in the `append` lambdas). -/
inductive IntKind where
  | BIGINT | INTEGER | SMALLINT | TINYINT
  deriving DecidableEq, Repr

namespace IntKind

/-- Width in bits of the kind. -/
def bits : IntKind → Nat
  | BIGINT => 64 | INTEGER => 32 | SMALLINT => 16 | TINYINT => 8

/-- The scalar kind. -/
def scalar : IntKind → ScalarKind
  | BIGINT => .BIGINT | INTEGER => .INTEGER | SMALLINT => .SMALLINT | TINYINT => .TINYINT

end IntKind

/-- The signed range of a width. -/
def fits (bits : Nat) (value : Int) : Prop :=
  -(2 : Int) ^ (bits - 1) ≤ value ∧ value < (2 : Int) ^ (bits - 1)

instance (bits : Nat) (value : Int) : Decidable (fits bits value) := by
  unfold fits; exact inferInstance

/-- The conversion `py::cast<intN_t>(value)` of a host integer: the value when
it is inside the signed range of the width, a cast error otherwise. -/
def pyCastInt (bits : Nat) (value : Int) : Except Err Int :=
  if fits bits value then .ok value else .error .castError

/-- The conversion of a host argument to `const std::string&`: a `str` is
encoded as UTF-8, a `bytes` object is taken as it is. -/
def pyCastString : PyObject → Except Err (List Byte)
  | .str s =>
    match encodeUTF8 s with
    | some b => .ok b
    | none => .error .castError
  | .bytes b => .ok b
  | _ => .error .castError

/-- A bound method call on `self`: the column after the call and the error it
raised, if any.  An exception leaves the lambda before the column has been
replaced, so the column is then the one before the call. -/
def invoke {S : Type} (method : S → Except Err S) (self : S) : S × Option Err :=
  match method self with
  | .ok s => (s, none)
  | .error e => (self, some e)

/-! ## The registered classes and their methods -/

/-- The column classes registered by the module (`FlatColumn<T>` adds no
method to `SimpleColumn<T>` and is left out). -/
inductive ColumnClass where
  | SimpleColumn (k : ScalarKind)
  | ArrayColumn
  | MapColumn
  | RowColumn
  deriving DecidableEq, Repr

/-- Names bound by `py::class_<BaseColumn>`; every column class inherits them. -/
def baseColumnDefs : List String :=
  ["type", "is_null_at", "get_null_count", "offset", "length", "__len__"]

/-- Names bound on the class returned by `declareSimpleType`. -/
def declareSimpleType : List String :=
  ["__getitem__", "append_null", "slice"]

/-- Names bound on each `SimpleColumn<T>` once the module body has chained its
own `.def` calls to `declareSimpleType`. -/
def simpleColumnDefs : ScalarKind → List String
  | .BIGINT => declareSimpleType ++ ["append", "neg"]
  | .INTEGER => declareSimpleType ++ ["append"]
  | .SMALLINT => declareSimpleType ++ ["append"]
  | .TINYINT => declareSimpleType ++ ["append"]
  | .BOOLEAN => declareSimpleType ++ ["append", "append"]
  | .REAL => declareSimpleType ++ ["append", "append", "neg"]
  | .DOUBLE => declareSimpleType ++ ["append", "append", "neg"]
  | .VARCHAR => declareSimpleType ++ ["append"]

/-- Names bound by `declareArrayType`. -/
def declareArrayType : List String :=
  ["append", "append_null", "__getitem__", "slice"]

/-- Names bound by `declareMapType`. -/
def declareMapType : List String :=
  ["append", "append_null", "offset_at", "size_at", "__getitem__", "keys", "values", "slice"]

/-- Names bound by `declareRowType`. -/
def declareRowType : List String :=
  ["child_at", "set_child", "children_size", "slice", "set_length", "set_null_at", "copy"]

/-- All names callable on an instance of a column class: its own and the ones
inherited from `BaseColumn`. -/
def methods : ColumnClass → List String
  | .SimpleColumn k => simpleColumnDefs k ++ baseColumnDefs
  | .ArrayColumn => declareArrayType ++ baseColumnDefs
  | .MapColumn => declareMapType ++ baseColumnDefs
  | .RowColumn => declareRowType ++ baseColumnDefs

/-- Whether the class offers the operation. -/
def hasMethod (c : ColumnClass) (name : String) : Bool := decide (name ∈ methods c)

/-! ## Element access and appending through the bindings -/

/-- The decoder handed to `declareSimpleType`: `py::cast(val)` for every kind
but `VARCHAR`, whose bytes go through `PyUnicode_DecodeUTF8`; a single-precision
element becomes the host float of the same value. -/
def decoder : (k : ScalarKind) → NativeType k → Except Err PyObject
  | .BIGINT, v => .ok (.int v)
  | .INTEGER, v => .ok (.int v)
  | .SMALLINT, v => .ok (.int v)
  | .TINYINT, v => .ok (.int v)
  | .BOOLEAN, v => .ok (.bool v)
  | .REAL, v => .ok (.float v.toDouble)
  | .DOUBLE, v => .ok (.float v)
  | .VARCHAR, v =>
    match decodeUTF8 v with
    | some s => .ok (.str s)
    | none => .error .decodeError

/-- The `__getitem__` lambda of `declareSimpleType`:
`decoder(self.valueAt(index))`. -/
def getitem (k : ScalarKind) (self : SimpleColumn (NativeType k)) (index : Nat) :
    Except Err PyObject := do
  let val ← self.valueAt index
  decoder k val

/-- The `append` lambdas of the four integer kinds:
`self.append(py::cast<intN_t>(value))`. -/
def appendInt (k : IntKind) (self : SimpleColumn Int) (value : Int) :
    Except Err (SimpleColumn Int) := do
  let v ← pyCastInt k.bits value
  self.append v

/-- The `append` lambda of `VARCHAR`: `self.append(StringView(value))` with
`value` converted to `std::string`. -/
def appendVarchar (self : SimpleColumn (List Byte)) (value : PyObject) :
    Except Err (SimpleColumn (List Byte)) := do
  let v ← pyCastString value
  self.append v

/-- A column of any registered class, as returned by `Column`. -/
inductive AnyColumn where
  | simple (k : ScalarKind) (c : SimpleColumn (NativeType k))
  | array (c : ArrayColumn Value)
  | map (c : MapColumn Value Value)
  | row (c : RowColumn (SimpleColumn Value))

namespace AnyColumn

/-- The class of the column. -/
def cls : AnyColumn → ColumnClass
  | simple k _ => .SimpleColumn k
  | array _ => .ArrayColumn
  | map _ => .MapColumn
  | row _ => .RowColumn

/-- Length of the column. -/
def length : AnyColumn → Nat
  | simple _ c => c.getLength
  | array c => c.getLength
  | map c => c.getLength
  | row c => c.getLength

/-- The descriptor a composite column was constructed from. -/
def type? : AnyColumn → Option TypePtr
  | simple _ _ => none
  | array c => some c.delegate.type
  | map c => some c.delegate.type
  | row c => some c.delegate.type

end AnyColumn

/-- The `Column` overload registered by `declareSimpleType<kind>`: it accepts a
`shared_ptr` to the kind's own type class and ignores its value. -/
def simpleColumnOverload (k : ScalarKind) : TypePtr → Option AnyColumn
  | .scalar k0 => if k = k0 then some (.simple k SimpleColumn.new) else none
  | _ => none

/-- The `Column` overload registered by `declareArrayType`. -/
def arrayColumnOverload : TypePtr → Option AnyColumn
  | .array e => some (.array (ArrayColumn.new (.array e)))
  | _ => none

/-- The `Column` overload registered by `declareMapType`. -/
def mapColumnOverload : TypePtr → Option AnyColumn
  | .map k v => some (.map (MapColumn.new (.map k v)))
  | _ => none

/-- The `Column` overload registered by `declareRowType`. -/
def rowColumnOverload : TypePtr → Option AnyColumn
  | .row ns cs => some (.row (RowColumn.new (.row ns cs)))
  | _ => none

/-- The overloads of `Column`, in the order the module body registers them. -/
def columnOverloads : List (TypePtr → Option AnyColumn) :=
  [simpleColumnOverload .BIGINT, simpleColumnOverload .INTEGER,
   simpleColumnOverload .SMALLINT, simpleColumnOverload .TINYINT,
   simpleColumnOverload .BOOLEAN, simpleColumnOverload .REAL,
   simpleColumnOverload .DOUBLE, simpleColumnOverload .VARCHAR,
   arrayColumnOverload, mapColumnOverload, rowColumnOverload]

/-- The module function `Column(type)`: the first overload accepting the
argument is called; when none accepts it the call fails. -/
def Column (type : TypePtr) : Except Err AnyColumn :=
  match columnOverloads.findSome? (fun f => f type) with
  | some c => .ok c
  | none => .error .unsupportedKind

/-! ## Invariants -/

/-- The null counter agrees with the bitmap over the window, and the window
ends where the bitmap ends. -/
def BaseColumn.Counted {S : Type} (c : BaseColumn S) : Prop :=
  c.offset + c.length = c.nulls.length ∧
    c.nullCount = BaseColumn.countNulls c.nulls c.offset c.length

/-- The ranges that a sequence of array appends writes to the offsets table when
the child column holds `start` elements before the first of them. -/
def rangesFrom {V : Type} (start : Nat) : List (Option (List V)) → List (Nat × Nat)
  | [] => []
  | some e :: rest => (start, start + e.length) :: rangesFrom (start + e.length) rest
  | none :: rest => (start, start) :: rangesFrom start rest

/-- Total number of elements appended by a sequence of array appends. -/
def totalElements {V : Type} : List (Option (List V)) → Nat
  | [] => 0
  | some e :: rest => e.length + totalElements rest
  | none :: rest => totalElements rest

/-- Width in bits of the integer kinds, none for the other kinds. -/
def ScalarKind.intBits : ScalarKind → Option Nat
  | .BIGINT => some 64
  | .INTEGER => some 32
  | .SMALLINT => some 16
  | .TINYINT => some 8
  | _ => none

/-- The arguments that are values of the column's own kind and that the column
holds exactly: an integer on an integer kind, a bool on `BOOLEAN`, a float on
`DOUBLE`, a float that single precision represents exactly on `REAL`, a text
on `VARCHAR`. -/
def isValueOfKind (k : ScalarKind) (value : PyObject) : Bool :=
  match k.intBits, k, value with
  | some _, _, .int _ => true
  | none, .BOOLEAN, .bool _ => true
  | none, .DOUBLE, .float _ => true
  | none, .REAL, .float x => decide (x.toFloat.toDouble = x)
  | none, .VARCHAR, .str _ => true
  | _, _, _ => false

/-- The 4-element column holding 10, 20, 30, 40. -/
def fourElements : SimpleColumn Int :=
  { delegate := [10, 20, 30, 40], nulls := [false, false, false, false]
    offset := 0, length := 4, nullCount := 0, owning := true }

/-! ## Facts about the column engine -/

theorem count_take_eq_filter_range (l : List Bool) (len : Nat) :
    (l.take len).count true =
      ((List.range len).filter (fun i => (l.drop i).headD false)).length := by
  induction len generalizing l with
  | zero => simp
  | succ n ih =>
    cases l with
    | nil => simp
    | cons x xs =>
      rw [List.range_succ_eq_map, List.take_succ_cons, List.filter_cons, List.filter_map]
      have hcomp : ((fun i => ((x :: xs).drop i).headD false) ∘ Nat.succ) =
          (fun i => (xs.drop i).headD false) := by
        funext i; simp
      rw [hcomp]
      cases x <;> simp [ih xs]

theorem BaseColumn.countNulls_eq_filter_range (nulls : List Bool) (off len : Nat) :
    BaseColumn.countNulls nulls off len =
      ((List.range len).filter (fun i => (nulls.drop (off + i)).headD false)).length := by
  unfold BaseColumn.countNulls
  rw [count_take_eq_filter_range]
  congr 2
  funext i
  rw [List.drop_drop]

theorem BaseColumn.nullPositions_eq_countNulls {S : Type} (c : BaseColumn S) :
    c.nullPositions = BaseColumn.countNulls c.nulls c.offset c.length := by
  rw [BaseColumn.countNulls_eq_filter_range]
  unfold BaseColumn.nullPositions
  congr 1
  apply List.filter_congr
  intro i hi
  have hlt : i < c.length := List.mem_range.mp hi
  simp only [BaseColumn.isNullAt, hlt, if_true]
  cases (c.nulls.drop (c.offset + i)).headD false <;> rfl

theorem BaseColumn.extend_counted {S : Type} (c c1 : BaseColumn S) (store : S) (b : Bool)
    (hc : c.Counted) (h : c.extend store b = .ok c1) : c1.Counted := by
  unfold BaseColumn.extend at h
  split at h
  · cases h
    obtain ⟨h1, h2⟩ := hc
    refine ⟨by simp; omega, ?_⟩
    simp only [BaseColumn.countNulls] at h2 ⊢
    have hd : (c.nulls ++ [b]).drop c.offset = c.nulls.drop c.offset ++ [b] := by
      rw [List.drop_append_of_le_length (by omega)]
    have hl : (c.nulls.drop c.offset).length = c.length := by simp; omega
    rw [hd, List.take_of_length_le (by simp; omega), List.count_append, h2,
      List.take_of_length_le (by omega)]
    cases b <;> simp
  · cases h

theorem BaseColumn.extend_owning {S : Type} (c c1 : BaseColumn S) (store : S) (b : Bool)
    (h : c.extend store b = .ok c1) : c1.owning = true := by
  unfold BaseColumn.extend at h
  split at h
  · cases h; assumption
  · cases h

theorem BaseColumn.counted_nullCount {S : Type} (c : BaseColumn S) (hc : c.Counted) :
    c.getNullCount = c.nullPositions := by
  rw [BaseColumn.nullPositions_eq_countNulls]
  exact hc.2

theorem SimpleColumn.appendAll_eq {T : Type} [Inhabited T] (ops : List (Option T))
    (c0 : SimpleColumn T) (h : c0.owning = true) :
    SimpleColumn.appendAll c0 ops = .ok
      { delegate := c0.delegate ++ ops.map (fun o => o.getD default)
        nulls := c0.nulls ++ ops.map Option.isNone
        offset := c0.offset
        length := c0.length + ops.length
        nullCount := c0.nullCount + ops.countP Option.isNone
        owning := true } := by
  induction ops generalizing c0 with
  | nil =>
    cases c0
    simp_all [SimpleColumn.appendAll]
  | cons o rest ih =>
    cases o with
    | none =>
      simp only [SimpleColumn.appendAll, SimpleColumn.appendNull, BaseColumn.extend, h, if_true]
      show SimpleColumn.appendAll _ rest = _
      rw [ih _ rfl]
      simp [Nat.add_assoc, Nat.add_comm 1]
    | some v =>
      simp only [SimpleColumn.appendAll, SimpleColumn.append, BaseColumn.extend, h, if_true]
      show SimpleColumn.appendAll _ rest = _
      rw [ih _ rfl]
      simp [Nat.add_assoc, Nat.add_comm 1]

theorem ArrayColumn.array_appendAll_spec {V : Type} [Inhabited V]
    (ops : List (Option (List (Option V)))) (c0 : ArrayColumn V)
    (ho : c0.owning = true) (hch : c0.delegate.elements.owning = true) :
    ∃ c, ArrayColumn.appendAll c0 ops = .ok c ∧ c.owning = true ∧
      c.delegate.elements.owning = true ∧ c.offset = c0.offset ∧
      c.length = c0.length + ops.length ∧
      c.delegate.offsets = c0.delegate.offsets ++ rangesFrom c0.delegate.elements.length ops ∧
      c.delegate.elements.length = c0.delegate.elements.length + totalElements ops ∧
      c.delegate.type = c0.delegate.type ∧
      (c0.Counted → c.Counted) := by
  induction ops generalizing c0 with
  | nil => exact ⟨c0, rfl, ho, hch, rfl, rfl, by simp [rangesFrom], rfl, rfl, id⟩
  | cons o rest ih =>
    cases o with
    | none =>
      have hstep : ∃ c1, c0.appendNull = .ok c1 := by
        simp [ArrayColumn.appendNull, BaseColumn.extend, ho]
      obtain ⟨c1, h1⟩ := hstep
      have h1' := h1
      simp only [ArrayColumn.appendNull, BaseColumn.extend, ho, if_true] at h1'
      obtain ⟨c, hc, hown, hcown, hoff, hlen, hoffs, hel, hty, hcnt⟩ :=
        ih c1 (BaseColumn.extend_owning _ _ _ _ h1) (by cases h1'; exact hch)
      refine ⟨c, ?_, hown, hcown, ?_, ?_, ?_, ?_, ?_, ?_⟩
      · simp only [ArrayColumn.appendAll, h1]; exact hc
      · rw [hoff]; cases h1'; rfl
      · rw [hlen]; cases h1'; simp; omega
      · rw [hoffs]; cases h1'; simp [rangesFrom]
      · rw [hel]; cases h1'; simp [totalElements]
      · rw [hty]; cases h1'; rfl
      · intro h0; exact hcnt (BaseColumn.extend_counted _ _ _ _ h0 h1)
    | some e =>
      have hchild := SimpleColumn.appendAll_eq e c0.delegate.elements hch
      have hstep : ∃ c1, c0.appendElement e = .ok c1 := by
        simp [ArrayColumn.appendElement, hchild, BaseColumn.extend, ho, bind, Except.bind]
      obtain ⟨c1, h1⟩ := hstep
      have h1' := h1
      simp only [ArrayColumn.appendElement, hchild, BaseColumn.extend, ho, if_true, bind,
        Except.bind] at h1'
      have hext : ∃ store, c0.extend store false = .ok c1 := by
        refine ⟨c1.delegate, ?_⟩
        cases h1'
        simp [BaseColumn.extend, ho]
      obtain ⟨store, hext⟩ := hext
      obtain ⟨c, hc, hown, hcown, hoff, hlen, hoffs, hel, hty, hcnt⟩ :=
        ih c1 (BaseColumn.extend_owning _ _ _ _ hext) (by cases h1'; rfl)
      refine ⟨c, ?_, hown, hcown, ?_, ?_, ?_, ?_, ?_, ?_⟩
      · simp only [ArrayColumn.appendAll, h1, bind, Except.bind]; exact hc
      · rw [hoff]; cases h1'; rfl
      · rw [hlen]; cases h1'; simp; omega
      · rw [hoffs]; cases h1'; simp [rangesFrom]
      · rw [hel]; cases h1'; simp [totalElements]; omega
      · rw [hty]; cases h1'; rfl
      · intro h0; exact hcnt (BaseColumn.extend_counted _ _ _ _ h0 hext)

theorem MapColumn.map_appendAll_spec {K V : Type} [Inhabited K] [Inhabited V]
    (ops : List (Option (List (K × Option V)))) (c0 : MapColumn K V)
    (ho : c0.owning = true) (hk : c0.delegate.keys.owning = true)
    (hv : c0.delegate.values.owning = true) :
    ∃ c, MapColumn.appendAll c0 ops = .ok c ∧ c.owning = true ∧
      c.delegate.keys.owning = true ∧ c.delegate.values.owning = true ∧
      c.length = c0.length + ops.length ∧
      (c0.Counted → c.Counted) := by
  induction ops generalizing c0 with
  | nil => exact ⟨c0, rfl, ho, hk, hv, rfl, id⟩
  | cons o rest ih =>
    cases o with
    | none =>
      have hstep : ∃ c1, c0.appendNull = .ok c1 := by
        simp [MapColumn.appendNull, BaseColumn.extend, ho]
      obtain ⟨c1, h1⟩ := hstep
      have h1' := h1
      simp only [MapColumn.appendNull, BaseColumn.extend, ho, if_true] at h1'
      obtain ⟨c, hc, hown, hkown, hvown, hlen, hcnt⟩ :=
        ih c1 (BaseColumn.extend_owning _ _ _ _ h1) (by cases h1'; exact hk)
          (by cases h1'; exact hv)
      refine ⟨c, ?_, hown, hkown, hvown, ?_, ?_⟩
      · simp only [MapColumn.appendAll, h1]; exact hc
      · rw [hlen]; cases h1'; simp; omega
      · intro h0; exact hcnt (BaseColumn.extend_counted _ _ _ _ h0 h1)
    | some e =>
      have hkeys := SimpleColumn.appendAll_eq (e.map (fun x => some x.1)) c0.delegate.keys hk
      have hvals := SimpleColumn.appendAll_eq (e.map (fun x => x.2)) c0.delegate.values hv
      have hstep : ∃ c1, c0.appendElement e = .ok c1 := by
        simp [MapColumn.appendElement, hkeys, hvals, BaseColumn.extend, ho, bind, Except.bind]
      obtain ⟨c1, h1⟩ := hstep
      have h1' := h1
      simp only [MapColumn.appendElement, hkeys, hvals, BaseColumn.extend, ho, if_true, bind,
        Except.bind] at h1'
      have hext : ∃ store, c0.extend store false = .ok c1 := by
        refine ⟨c1.delegate, ?_⟩
        cases h1'
        simp [BaseColumn.extend, ho]
      obtain ⟨store, hext⟩ := hext
      obtain ⟨c, hc, hown, hkown, hvown, hlen, hcnt⟩ :=
        ih c1 (BaseColumn.extend_owning _ _ _ _ hext) (by cases h1'; rfl) (by cases h1'; rfl)
      refine ⟨c, ?_, hown, hkown, hvown, ?_, ?_⟩
      · simp only [MapColumn.appendAll, h1, bind, Except.bind]; exact hc
      · rw [hlen]; cases h1'; simp; omega
      · intro h0; exact hcnt (BaseColumn.extend_counted _ _ _ _ h0 hext)

theorem SimpleColumn.appendAll_counted {T : Type} [Inhabited T] (ops : List (Option T))
    (c0 : SimpleColumn T) (ho : c0.owning = true) (hc : c0.Counted) :
    ∃ c, SimpleColumn.appendAll c0 ops = .ok c ∧ c.Counted := by
  induction ops generalizing c0 with
  | nil => exact ⟨c0, rfl, hc⟩
  | cons o rest ih =>
    cases o with
    | none =>
      have hstep : ∃ c1, c0.appendNull = .ok c1 := by
        simp [SimpleColumn.appendNull, BaseColumn.extend, ho]
      obtain ⟨c1, h1⟩ := hstep
      obtain ⟨c, hc1, hcnt⟩ := ih c1 (BaseColumn.extend_owning _ _ _ _ h1)
        (BaseColumn.extend_counted _ _ _ _ hc h1)
      exact ⟨c, by simp only [SimpleColumn.appendAll, h1, bind, Except.bind]; exact hc1, hcnt⟩
    | some v =>
      have hstep : ∃ c1, c0.append v = .ok c1 := by
        simp [SimpleColumn.append, BaseColumn.extend, ho]
      obtain ⟨c1, h1⟩ := hstep
      obtain ⟨c, hc1, hcnt⟩ := ih c1 (BaseColumn.extend_owning _ _ _ _ h1)
        (BaseColumn.extend_counted _ _ _ _ hc h1)
      exact ⟨c, by simp only [SimpleColumn.appendAll, h1, bind, Except.bind]; exact hc1, hcnt⟩

theorem BaseColumn.slice_nullCount {S : Type} (c s : BaseColumn S) (o l : Nat)
    (h : c.slice o l = .ok s) : s.getNullCount = s.nullPositions := by
  rw [BaseColumn.nullPositions_eq_countNulls]
  unfold BaseColumn.slice at h
  split at h
  · cases h; rfl
  · cases h

theorem rangesFrom_map_some {V : Type} (es : List (List V)) (n i : Nat) (h : i < es.length) :
    (rangesFrom n (es.map some))[i]? =
      some (n + ((es.take i).map List.length).sum,
            n + ((es.take i).map List.length).sum + es[i].length) := by
  induction es generalizing n i with
  | nil => simp at h
  | cons e rest ih =>
    cases i with
    | zero => simp [rangesFrom]
    | succ j =>
      have hj : j < rest.length := by simpa using h
      simp only [List.map_cons, rangesFrom, List.getElem?_cons_succ, ih _ j hj, List.take_succ_cons,
        List.sum_cons, List.getElem_cons_succ]
      simp [Nat.add_assoc]

theorem totalElements_map_some {V : Type} (es : List (List V)) :
    totalElements (es.map some) = (es.map List.length).sum := by
  induction es with
  | nil => rfl
  | cons e rest ih => simp [totalElements, ih]

/-! ## The UTF-8 codec -/

theorem byte_val (n : Nat) (h : n < 256) : (byte n).val = n := by
  unfold byte
  show n % 256 = n
  omega

theorem byte_of_val (b : Byte) : byte b.val = b := by
  apply Fin.ext
  rw [byte_val _ b.isLt]

theorem decode_one (b0 : Byte) (r0 : List Byte) (h : b0.val < 0x80) :
    decodeUTF8 (b0 :: r0) = (decodeUTF8 r0).map (fun s => b0.val :: s) := by
  rw [decodeUTF8.eq_def]
  simp [h]

theorem decode_two (b0 b1 : Byte) (r1 : List Byte) (h0 : ¬ b0.val < 0x80)
    (h : ok2 b0 b1 = true) :
    decodeUTF8 (b0 :: b1 :: r1) = (decodeUTF8 r1).map (fun s => cp2 b0 b1 :: s) := by
  rw [decodeUTF8.eq_def]
  simp [h0, h]

theorem decode_three (b0 b1 b2 : Byte) (r2 : List Byte) (h0 : ¬ b0.val < 0x80)
    (h2 : ok2 b0 b1 = false) (h : ok3 b0 b1 b2 = true) :
    decodeUTF8 (b0 :: b1 :: b2 :: r2) = (decodeUTF8 r2).map (fun s => cp3 b0 b1 b2 :: s) := by
  rw [decodeUTF8.eq_def]
  simp [h0, h2, h]

theorem decode_four (b0 b1 b2 b3 : Byte) (r3 : List Byte) (h0 : ¬ b0.val < 0x80)
    (h2 : ok2 b0 b1 = false) (h3 : ok3 b0 b1 b2 = false) (h : ok4 b0 b1 b2 b3 = true) :
    decodeUTF8 (b0 :: b1 :: b2 :: b3 :: r3) =
      (decodeUTF8 r3).map (fun s => cp4 b0 b1 b2 b3 :: s) := by
  rw [decodeUTF8.eq_def]
  simp [h0, h2, h3, h]

theorem decode_encodeCodePoint (cp : Nat) (bs rest : List Byte)
    (h : encodeCodePoint cp = some bs) :
    decodeUTF8 (bs ++ rest) = (decodeUTF8 rest).map (fun s => cp :: s) := by
  unfold encodeCodePoint at h
  split at h
  · rename_i h1
    cases h
    have hv : (byte cp).val = cp := byte_val _ (by omega)
    rw [List.singleton_append, decode_one _ _ (by rw [hv]; exact h1), hv]
  · split at h
    · rename_i h1 h2
      cases h
      have hv0 : (byte (0xC0 + cp / 64)).val = 0xC0 + cp / 64 := byte_val _ (by omega)
      have hv1 : (byte (0x80 + cp % 64)).val = 0x80 + cp % 64 := byte_val _ (by omega)
      have hcp : cp2 (byte (0xC0 + cp / 64)) (byte (0x80 + cp % 64)) = cp := by
        simp only [cp2, hv0, hv1]; omega
      have hok : ok2 (byte (0xC0 + cp / 64)) (byte (0x80 + cp % 64)) = true := by
        simp only [ok2, isCont, hcp, hv0, hv1, Bool.and_eq_true, decide_eq_true_eq]
        omega
      have hn : ¬ (byte (0xC0 + cp / 64)).val < 0x80 := by rw [hv0]; omega
      show decodeUTF8 (_ :: _ :: rest) = _
      rw [decode_two _ _ _ hn hok, hcp]
    · split at h
      · rename_i h1 h2 h3
        split at h
        · cases h
        · rename_i h4
          cases h
          have hv0 : (byte (0xE0 + cp / 4096)).val = 0xE0 + cp / 4096 := byte_val _ (by omega)
          have hv1 : (byte (0x80 + cp / 64 % 64)).val = 0x80 + cp / 64 % 64 :=
            byte_val _ (by omega)
          have hv2 : (byte (0x80 + cp % 64)).val = 0x80 + cp % 64 := byte_val _ (by omega)
          have hcp : cp3 (byte (0xE0 + cp / 4096)) (byte (0x80 + cp / 64 % 64))
              (byte (0x80 + cp % 64)) = cp := by
            simp only [cp3, hv0, hv1, hv2]; omega
          have hn : ¬ (byte (0xE0 + cp / 4096)).val < 0x80 := by rw [hv0]; omega
          have hno2 : ok2 (byte (0xE0 + cp / 4096)) (byte (0x80 + cp / 64 % 64)) = false := by
            simp only [ok2, hv0, Bool.and_eq_false_imp, Bool.and_eq_true, decide_eq_true_eq,
              decide_eq_false_iff_not]
            omega
          have hok : ok3 (byte (0xE0 + cp / 4096)) (byte (0x80 + cp / 64 % 64))
              (byte (0x80 + cp % 64)) = true := by
            simp only [ok3, isCont, hcp, hv0, hv1, hv2, Bool.and_eq_true, decide_eq_true_eq,
              Bool.not_eq_true', Bool.and_eq_false_imp, decide_eq_false_iff_not]
            omega
          show decodeUTF8 (_ :: _ :: _ :: rest) = _
          rw [decode_three _ _ _ _ hn hno2 hok, hcp]
      · split at h
        · rename_i h1 h2 h3 h4
          cases h
          have hv0 : (byte (0xF0 + cp / 262144)).val = 0xF0 + cp / 262144 :=
            byte_val _ (by omega)
          have hv1 : (byte (0x80 + cp / 4096 % 64)).val = 0x80 + cp / 4096 % 64 :=
            byte_val _ (by omega)
          have hv2 : (byte (0x80 + cp / 64 % 64)).val = 0x80 + cp / 64 % 64 :=
            byte_val _ (by omega)
          have hv3 : (byte (0x80 + cp % 64)).val = 0x80 + cp % 64 := byte_val _ (by omega)
          have hcp : cp4 (byte (0xF0 + cp / 262144)) (byte (0x80 + cp / 4096 % 64))
              (byte (0x80 + cp / 64 % 64)) (byte (0x80 + cp % 64)) = cp := by
            simp only [cp4, hv0, hv1, hv2, hv3]; omega
          have hn : ¬ (byte (0xF0 + cp / 262144)).val < 0x80 := by rw [hv0]; omega
          have hno2 : ok2 (byte (0xF0 + cp / 262144)) (byte (0x80 + cp / 4096 % 64)) = false := by
            simp only [ok2, hv0, Bool.and_eq_false_imp, Bool.and_eq_true, decide_eq_true_eq,
              decide_eq_false_iff_not]
            omega
          have hno3 : ok3 (byte (0xF0 + cp / 262144)) (byte (0x80 + cp / 4096 % 64))
              (byte (0x80 + cp / 64 % 64)) = false := by
            simp only [ok3, hv0, Bool.and_eq_false_imp, Bool.and_eq_true, decide_eq_true_eq,
              decide_eq_false_iff_not]
            omega
          have hok : ok4 (byte (0xF0 + cp / 262144)) (byte (0x80 + cp / 4096 % 64))
              (byte (0x80 + cp / 64 % 64)) (byte (0x80 + cp % 64)) = true := by
            simp only [ok4, isCont, hcp, hv0, hv1, hv2, hv3, Bool.and_eq_true,
              decide_eq_true_eq]
            omega
          show decodeUTF8 (_ :: _ :: _ :: _ :: rest) = _
          rw [decode_four _ _ _ _ _ hn hno2 hno3 hok, hcp]
        · cases h

theorem decode_encodeUTF8 (s : List Nat) (b : List Byte) (h : encodeUTF8 s = some b) :
    decodeUTF8 b = some s := by
  induction s generalizing b with
  | nil =>
    simp only [encodeUTF8] at h
    cases h
    rw [decodeUTF8.eq_def]
  | cons cp rest ih =>
    simp only [encodeUTF8] at h
    split at h
    · rename_i bs r hbs hr
      cases h
      rw [decode_encodeCodePoint cp bs r hbs, ih r hr]
      rfl
    · cases h

theorem encode_one (b0 : Byte) (h : b0.val < 0x80) : encodeCodePoint b0.val = some [b0] := by
  unfold encodeCodePoint
  rw [if_pos h, byte_of_val]

theorem encode_two (b0 b1 : Byte) (h : ok2 b0 b1 = true) :
    encodeCodePoint (cp2 b0 b1) = some [b0, b1] := by
  simp only [ok2, isCont, Bool.and_eq_true, decide_eq_true_eq] at h
  obtain ⟨⟨⟨h1, h2⟩, h3, h4⟩, h5⟩ := h
  have hb0 : byte (0xC0 + cp2 b0 b1 / 64) = b0 := by
    apply Fin.ext
    rw [byte_val _ (by simp only [cp2]; omega)]
    simp only [cp2]; omega
  have hb1 : byte (0x80 + cp2 b0 b1 % 64) = b1 := by
    apply Fin.ext
    rw [byte_val _ (by omega)]
    simp only [cp2]; omega
  unfold encodeCodePoint
  rw [if_neg (by omega), if_pos (by simp only [cp2]; omega), hb0, hb1]

theorem encode_three (b0 b1 b2 : Byte) (h : ok3 b0 b1 b2 = true) :
    encodeCodePoint (cp3 b0 b1 b2) = some [b0, b1, b2] := by
  simp only [ok3, isCont, Bool.and_eq_true, decide_eq_true_eq, Bool.not_eq_true',
    Bool.and_eq_false_imp, decide_eq_false_iff_not] at h
  obtain ⟨⟨⟨⟨⟨h1, h2⟩, h3, h4⟩, h5, h6⟩, h7⟩, h8⟩ := h
  have hb0 : byte (0xE0 + cp3 b0 b1 b2 / 4096) = b0 := by
    apply Fin.ext
    rw [byte_val _ (by simp only [cp3]; omega)]
    simp only [cp3]; omega
  have hb1 : byte (0x80 + cp3 b0 b1 b2 / 64 % 64) = b1 := by
    apply Fin.ext
    rw [byte_val _ (by omega)]
    simp only [cp3]; omega
  have hb2 : byte (0x80 + cp3 b0 b1 b2 % 64) = b2 := by
    apply Fin.ext
    rw [byte_val _ (by omega)]
    simp only [cp3]; omega
  unfold encodeCodePoint
  rw [if_neg (by omega), if_neg (by omega), if_pos (by simp only [cp3]; omega),
    if_neg (by omega), hb0, hb1, hb2]

theorem encode_four (b0 b1 b2 b3 : Byte) (h : ok4 b0 b1 b2 b3 = true) :
    encodeCodePoint (cp4 b0 b1 b2 b3) = some [b0, b1, b2, b3] := by
  simp only [ok4, isCont, Bool.and_eq_true, decide_eq_true_eq] at h
  obtain ⟨⟨⟨⟨⟨⟨h1, h2⟩, h3, h4⟩, h5, h6⟩, h7, h8⟩, h9⟩, h10⟩ := h
  have hb0 : byte (0xF0 + cp4 b0 b1 b2 b3 / 262144) = b0 := by
    apply Fin.ext
    rw [byte_val _ (by omega)]
    simp only [cp4]; omega
  have hb1 : byte (0x80 + cp4 b0 b1 b2 b3 / 4096 % 64) = b1 := by
    apply Fin.ext
    rw [byte_val _ (by omega)]
    simp only [cp4]; omega
  have hb2 : byte (0x80 + cp4 b0 b1 b2 b3 / 64 % 64) = b2 := by
    apply Fin.ext
    rw [byte_val _ (by omega)]
    simp only [cp4]; omega
  have hb3 : byte (0x80 + cp4 b0 b1 b2 b3 % 64) = b3 := by
    apply Fin.ext
    rw [byte_val _ (by omega)]
    simp only [cp4]; omega
  unfold encodeCodePoint
  rw [if_neg (by omega), if_neg (by omega), if_neg (by omega), if_pos h10, hb0, hb1, hb2, hb3]

theorem encode_cons (cp : Nat) (s : List Nat) (bs r : List Byte)
    (h1 : encodeCodePoint cp = some bs) (h2 : encodeUTF8 s = some r) :
    encodeUTF8 (cp :: s) = some (bs ++ r) := by
  simp [encodeUTF8, h1, h2]

theorem map_cons_eq_some (cp : Nat) (x : Option (List Nat)) (s : List Nat)
    (h : x.map (fun t => cp :: t) = some s) : ∃ t, x = some t ∧ s = cp :: t := by
  cases x with
  | none => cases h
  | some t => exact ⟨t, rfl, by cases h; rfl⟩

theorem encode_decodeUTF8_aux (n : Nat) :
    ∀ (b : List Byte) (s : List Nat), b.length ≤ n → decodeUTF8 b = some s →
      encodeUTF8 s = some b := by
  induction n with
  | zero =>
    intro b s hb h
    cases b with
    | nil =>
      rw [decodeUTF8.eq_def] at h
      cases h
      rfl
    | cons b0 r0 => simp at hb
  | succ n ih =>
    intro b s hb h
    cases b with
    | nil =>
      rw [decodeUTF8.eq_def] at h
      cases h
      rfl
    | cons b0 r0 =>
      by_cases h0 : b0.val < 0x80
      · rw [decode_one _ _ h0] at h
        obtain ⟨t, ht, hs⟩ := map_cons_eq_some _ _ _ h
        subst hs
        exact encode_cons _ _ _ _ (encode_one b0 h0)
          (ih r0 t (by simp at hb; omega) ht)
      · cases r0 with
        | nil =>
          rw [decodeUTF8.eq_def] at h
          simp [h0] at h
        | cons b1 r1 =>
          cases h2 : ok2 b0 b1 with
          | true =>
            rw [decode_two _ _ _ h0 h2] at h
            obtain ⟨t, ht, hs⟩ := map_cons_eq_some _ _ _ h
            subst hs
            exact encode_cons _ _ _ _ (encode_two b0 b1 h2)
              (ih r1 t (by simp at hb; omega) ht)
          | false =>
            cases r1 with
            | nil =>
              rw [decodeUTF8.eq_def] at h
              simp [h0, h2] at h
            | cons b2 r2 =>
              cases h3 : ok3 b0 b1 b2 with
              | true =>
                rw [decode_three _ _ _ _ h0 h2 h3] at h
                obtain ⟨t, ht, hs⟩ := map_cons_eq_some _ _ _ h
                subst hs
                exact encode_cons _ _ _ _ (encode_three b0 b1 b2 h3)
                  (ih r2 t (by simp at hb; omega) ht)
              | false =>
                cases r2 with
                | nil =>
                  rw [decodeUTF8.eq_def] at h
                  simp [h0, h2, h3] at h
                | cons b3 r3 =>
                  cases h4 : ok4 b0 b1 b2 b3 with
                  | true =>
                    rw [decode_four _ _ _ _ _ h0 h2 h3 h4] at h
                    obtain ⟨t, ht, hs⟩ := map_cons_eq_some _ _ _ h
                    subst hs
                    exact encode_cons _ _ _ _ (encode_four b0 b1 b2 b3 h4)
                      (ih r3 t (by simp at hb; omega) ht)
                  | false =>
                    rw [decodeUTF8.eq_def] at h
                    simp [h0, h2, h3, h4] at h

theorem encode_decodeUTF8 (b : List Byte) (s : List Nat) (h : decodeUTF8 b = some s) :
    encodeUTF8 s = some b :=
  encode_decodeUTF8_aux b.length b s (Nat.le_refl _) h

/-! ## The method tables -/

/-- C9: the row-only operations (`copy`, `set_child`, `set_length`,
`set_null_at`) are bound on the row column class and on no other column class,
and the map-only operations (`keys`, `values`, `offset_at`, `size_at`) are
bound on the map column class and on no other column class. -/
theorem kind_restricted_operations (c : ColumnClass) :
    (hasMethod c "copy" = true ↔ c = .RowColumn) ∧
    (hasMethod c "set_child" = true ↔ c = .RowColumn) ∧
    (hasMethod c "set_length" = true ↔ c = .RowColumn) ∧
    (hasMethod c "set_null_at" = true ↔ c = .RowColumn) ∧
    (hasMethod c "keys" = true ↔ c = .MapColumn) ∧
    (hasMethod c "values" = true ↔ c = .MapColumn) ∧
    (hasMethod c "offset_at" = true ↔ c = .MapColumn) ∧
    (hasMethod c "size_at" = true ↔ c = .MapColumn) := by
  cases c with
  | SimpleColumn k => cases k <;> decide
  | ArrayColumn => decide
  | MapColumn => decide
  | RowColumn => decide

/-- C7 (as stated, refuted): it is not the case that every numeric scalar kind
offers `neg`; the 32-bit integer column class has no `neg`. -/
theorem neg_not_on_every_numeric_kind :
    ¬ (∀ k : ScalarKind, hasMethod (.SimpleColumn k) "neg" = true ↔
        (k = .TINYINT ∨ k = .SMALLINT ∨ k = .INTEGER ∨ k = .BIGINT ∨ k = .REAL ∨ k = .DOUBLE)) := by
  intro h
  have h1 := (h .INTEGER).2 (Or.inr (Or.inr (Or.inl rfl)))
  revert h1
  decide

/-- C7 (amended): a scalar column class offers `neg` exactly when its kind is
the 64-bit integer, the single-precision or the double-precision kind; in
particular only numeric kinds offer it, and neither `BOOLEAN` nor `VARCHAR`
does. -/
theorem neg_offered_iff (k : ScalarKind) :
    hasMethod (.SimpleColumn k) "neg" = true ↔ (k = .BIGINT ∨ k = .REAL ∨ k = .DOUBLE) := by
  cases k <;> decide

/-! ## The factory -/

/-- C10: `Column(type)` fails, with the failure of overload resolution and
without constructing a column, exactly for the descriptors whose tag is not one
of the eleven bound kinds, and it returns a column exactly for the descriptors
whose tag is one of them. -/
theorem Column_fails_iff_unsupported (t : TypePtr) :
    (Column t = .error .unsupportedKind ↔ t.kind.supported = false) ∧
    ((∃ c, Column t = .ok c) ↔ t.kind.supported = true) := by
  cases t with
  | scalar k => cases k <;> simp [Column, columnOverloads, simpleColumnOverload, TypePtr.kind,
      ScalarKind.kind, TypeKind.supported]
  | array e => simp [Column, columnOverloads, simpleColumnOverload, arrayColumnOverload,
      TypePtr.kind, TypeKind.supported]
  | map k v => simp [Column, columnOverloads, simpleColumnOverload, arrayColumnOverload,
      mapColumnOverload, TypePtr.kind, TypeKind.supported]
  | row ns cs => simp [Column, columnOverloads, simpleColumnOverload, arrayColumnOverload,
      mapColumnOverload, rowColumnOverload, TypePtr.kind, TypeKind.supported]
  | other n => simp [Column, columnOverloads, simpleColumnOverload, arrayColumnOverload,
      mapColumnOverload, rowColumnOverload, TypePtr.kind, TypeKind.supported]

theorem Column_scalar (k : ScalarKind) :
    Column (.scalar k) = .ok (.simple k SimpleColumn.new) := by
  cases k <;> simp [Column, columnOverloads, simpleColumnOverload]

theorem Column_array (e : TypePtr) :
    Column (.array e) = .ok (.array (ArrayColumn.new (.array e))) := by
  simp [Column, columnOverloads, simpleColumnOverload, arrayColumnOverload]

theorem Column_map (k v : TypePtr) :
    Column (.map k v) = .ok (.map (MapColumn.new (.map k v))) := by
  simp [Column, columnOverloads, simpleColumnOverload, arrayColumnOverload, mapColumnOverload]

theorem Column_row (ns : List String) (cs : List TypePtr) :
    Column (.row ns cs) = .ok (.row (RowColumn.new (.row ns cs))) := by
  simp [Column, columnOverloads, simpleColumnOverload, arrayColumnOverload, mapColumnOverload,
    rowColumnOverload]

/-- C2: for each of the eleven bound kinds `Column(type)` returns the empty
column of the matching class: the empty simple column of the kind's native
element type for a scalar kind, and for `ARRAY`, `MAP` and `ROW` the empty
array, map or row column constructed from the given descriptor, which it keeps
together with its child descriptors. -/
theorem Column_constructs_matching_empty_column :
    (∀ k : ScalarKind, Column (.scalar k) = .ok (.simple k SimpleColumn.new)) ∧
    (∀ e : TypePtr, Column (.array e) = .ok (.array (ArrayColumn.new (.array e)))) ∧
    (∀ k v : TypePtr, Column (.map k v) = .ok (.map (MapColumn.new (.map k v)))) ∧
    (∀ (ns : List String) (cs : List TypePtr),
      Column (.row ns cs) = .ok (.row (RowColumn.new (.row ns cs)))) ∧
    (∀ (t : TypePtr) (c : AnyColumn), Column t = .ok c →
      c.length = 0 ∧
      (match t.kind with
       | .ARRAY => c.cls = .ArrayColumn ∧ c.type? = some t
       | .MAP => c.cls = .MapColumn ∧ c.type? = some t
       | .ROW => c.cls = .RowColumn ∧ c.type? = some t
       | _ => ∃ k, t = .scalar k ∧ c.cls = .SimpleColumn k) ∧
      (c.type?.map TypePtr.childTypes).getD [] = t.childTypes) := by
  have h1 := Column_scalar
  have h2 := Column_array
  have h3 := Column_map
  have h4 := Column_row
  refine ⟨h1, h2, h3, h4, ?_⟩
  intro t c hc
  cases t with
  | scalar k =>
    rw [h1 k] at hc
    cases hc
    cases k <;>
      simp [AnyColumn.length, AnyColumn.cls, AnyColumn.type?, TypePtr.kind, ScalarKind.kind,
        TypePtr.childTypes, BaseColumn.getLength, SimpleColumn.new]
  | array e =>
    rw [h2 e] at hc
    cases hc
    simp [AnyColumn.length, AnyColumn.cls, AnyColumn.type?, TypePtr.kind, TypePtr.childTypes,
      BaseColumn.getLength, ArrayColumn.new]
  | map k v =>
    rw [h3 k v] at hc
    cases hc
    simp [AnyColumn.length, AnyColumn.cls, AnyColumn.type?, TypePtr.kind, TypePtr.childTypes,
      BaseColumn.getLength, MapColumn.new]
  | row ns cs =>
    rw [h4 ns cs] at hc
    cases hc
    simp [AnyColumn.length, AnyColumn.cls, AnyColumn.type?, TypePtr.kind, TypePtr.childTypes,
      BaseColumn.getLength, RowColumn.new]
  | other n =>
    simp [Column, columnOverloads, simpleColumnOverload, arrayColumnOverload, mapColumnOverload,
      rowColumnOverload] at hc

/-- Witness for `Column_constructs_matching_empty_column`: the `ARRAY<INTEGER>`
descriptor. -/
theorem Column_constructs_matching_empty_column_witness :
    Column (.array (.scalar .INTEGER)) =
        .ok (.array (ArrayColumn.new (.array (.scalar .INTEGER)))) ∧
      (AnyColumn.array (ArrayColumn.new (.array (.scalar .INTEGER)))).length = 0 ∧
      (AnyColumn.array (ArrayColumn.new (.array (.scalar .INTEGER)))).type? =
        some (.array (.scalar .INTEGER)) :=
  ⟨Column_constructs_matching_empty_column.2.1 _,
   (Column_constructs_matching_empty_column.2.2.2.2 _ _
      (Column_constructs_matching_empty_column.2.1 _)).1,
   (Column_constructs_matching_empty_column.2.2.2.2 _ _
      (Column_constructs_matching_empty_column.2.1 _)).2.1.2⟩

/-! ## Appending and reading back -/

theorem SimpleColumn.read_after_appendAll {T : Type} [Inhabited T] (ops : List (Option T))
    (i : Nat) (o : Option T) (h : ops[i]? = some o) :
    ∃ c, SimpleColumn.appendAll SimpleColumn.new ops = .ok c ∧
      c.isNullAt i = .ok o.isNone ∧ c.valueAt i = .ok (o.getD default) := by
  refine ⟨_, SimpleColumn.appendAll_eq ops SimpleColumn.new rfl, ?_, ?_⟩
  · obtain ⟨hi, hio⟩ := List.getElem?_eq_some.1 h
    simp [BaseColumn.isNullAt, SimpleColumn.new, hi, List.headD_eq_head?_getD, hio]
  · obtain ⟨hi, hio⟩ := List.getElem?_eq_some.1 h
    simp [SimpleColumn.valueAt, SimpleColumn.new, hi, hio]

/-- Values of the conversions between double and single precision: 0.5 and the
least single-precision subnormal are kept, pi and 0.1 are rounded, 1e39 becomes
infinity, and the sign of zero is kept. -/
theorem float_conversion_values :
    F64.toFloat ⟨0x3FE0000000000000⟩ = ⟨0x3F000000⟩ ∧
    F32.toDouble ⟨0x3F000000⟩ = ⟨0x3FE0000000000000⟩ ∧
    F32.toDouble ⟨1⟩ = ⟨0x36A0000000000000⟩ ∧
    F64.toFloat ⟨0x36A0000000000000⟩ = ⟨1⟩ ∧
    F64.toFloat ⟨0x400921FB54442D18⟩ = ⟨0x40490FDB⟩ ∧
    F64.toFloat ⟨0x3FB999999999999A⟩ = ⟨0x3DCCCCCD⟩ ∧
    F64.toFloat ⟨0x48078287F49C4A1D⟩ = ⟨0x7F800000⟩ ∧
    F64.toFloat ⟨0x8000000000000000⟩ = ⟨0x80000000⟩ ∧
    F64.ofInt 16777217 = some ⟨0x4170000010000000⟩ ∧
    F64.ofInt (-2) = some ⟨0xC000000000000000⟩ := by
  refine ⟨by decide, by decide, by decide, by decide, by decide, by decide, by decide,
    by decide, by decide, by decide⟩

/-- The float 0.5 is a value a `REAL` column holds exactly, the float 0.1 is
not. -/
theorem single_precision_values :
    isValueOfKind .REAL (.float ⟨0x3FE0000000000000⟩) = true ∧
    isValueOfKind .REAL (.float ⟨0x3FB999999999999A⟩) = false := by
  refine ⟨by decide, by decide⟩

/-- The scenario of the specification through the bound `append` of the
`INTEGER` class: length 4, null count 1, `[0] = 1`, `[3] = 4`, position 2 null. -/
theorem integer_scenario :
    ∃ c1 c2 c3 c4 : SimpleColumn Int,
      appendInt .INTEGER SimpleColumn.new 1 = .ok c1 ∧ appendInt .INTEGER c1 2 = .ok c2 ∧
      c2.appendNull = .ok c3 ∧ appendInt .INTEGER c3 4 = .ok c4 ∧
      c4.getLength = 4 ∧ c4.getNullCount = 1 ∧
      getitem .INTEGER c4 0 = .ok (.int 1) ∧ getitem .INTEGER c4 3 = .ok (.int 4) ∧
      c4.isNullAt 2 = .ok true := by
  refine ⟨_, _, _, _, rfl, rfl, rfl, rfl, ?_⟩
  decide

/-! ## The null count -/

/-- C3: for the column of every kind that takes appends (simple, array, map)
and every sequence of `append` / `append_null` calls applied to the empty
column, the calls succeed and `get_null_count()` of the result equals the
number of positions `i` in `[0, length)` at which `is_null_at(i)` is true; the
same holds for every slice of the result. -/
theorem null_count_eq_null_positions :
    (∀ (T : Type) [Inhabited T] (ops : List (Option T)),
      ∃ c, SimpleColumn.appendAll SimpleColumn.new ops = .ok c ∧
        c.getNullCount = c.nullPositions ∧
        ∀ o l s, c.slice o l = .ok s → s.getNullCount = s.nullPositions) ∧
    (∀ (V : Type) [Inhabited V] (t : TypePtr) (ops : List (Option (List (Option V)))),
      ∃ c, ArrayColumn.appendAll (ArrayColumn.new t) ops = .ok c ∧
        c.getNullCount = c.nullPositions ∧
        ∀ o l s, c.slice o l = .ok s → s.getNullCount = s.nullPositions) ∧
    (∀ (K V : Type) [Inhabited K] [Inhabited V] (t : TypePtr)
        (ops : List (Option (List (K × Option V)))),
      ∃ c, MapColumn.appendAll (MapColumn.new t) ops = .ok c ∧
        c.getNullCount = c.nullPositions ∧
        ∀ o l s, c.slice o l = .ok s → s.getNullCount = s.nullPositions) := by
  refine ⟨?_, ?_, ?_⟩
  · intro T _ ops
    obtain ⟨c, hc, hcnt⟩ := SimpleColumn.appendAll_counted ops SimpleColumn.new rfl
      ⟨rfl, rfl⟩
    exact ⟨c, hc, BaseColumn.counted_nullCount c hcnt,
      fun o l s h => BaseColumn.slice_nullCount c s o l h⟩
  · intro V _ t ops
    obtain ⟨c, hc, _, _, _, _, _, _, _, hcnt⟩ :=
      ArrayColumn.array_appendAll_spec ops (ArrayColumn.new t) rfl rfl
    exact ⟨c, hc, BaseColumn.counted_nullCount c (hcnt ⟨rfl, rfl⟩),
      fun o l s h => BaseColumn.slice_nullCount c s o l h⟩
  · intro K V _ _ t ops
    obtain ⟨c, hc, _, _, _, _, hcnt⟩ :=
      MapColumn.map_appendAll_spec ops (MapColumn.new t) rfl rfl rfl
    exact ⟨c, hc, BaseColumn.counted_nullCount c (hcnt ⟨rfl, rfl⟩),
      fun o l s h => BaseColumn.slice_nullCount c s o l h⟩

/-- Witness for `null_count_eq_null_positions`: after `append(1)`, `append(2)`,
`append_null()`, `append(4)` the null count is 1, and the slice of the last two
positions, which exists, has its null count equal to its null positions. -/
theorem null_count_eq_null_positions_witness :
    ∃ c s : SimpleColumn Int,
      SimpleColumn.appendAll SimpleColumn.new [some 1, some 2, none, some 4] = .ok c ∧
      c.getNullCount = c.nullPositions ∧ c.slice 2 2 = .ok s ∧
      s.getNullCount = s.nullPositions ∧ s.getNullCount = 1 := by
  obtain ⟨c, hc, hn, hs⟩ :=
    null_count_eq_null_positions.1 Int ([some 1, some 2, none, some 4] : List (Option Int))
  have hc0 : SimpleColumn.appendAll SimpleColumn.new
      ([some 1, some 2, none, some 4] : List (Option Int)) =
      .ok { delegate := [1, 2, default, 4], nulls := [false, false, true, false],
            offset := 0, length := 4, nullCount := 1, owning := true } := rfl
  rw [hc0] at hc
  cases hc
  exact ⟨_, _, hc0, hn, rfl, hs 2 2 _ rfl, by decide⟩

/-! ## Array offsets -/

/-- C8: for an array column built from the empty one by `appendElement` calls
with element lists `e_0, ..., e_{n-1}`, the calls succeed, the column has
length `n`, the range of position `i` is (sum of the lengths of
`e_0 .. e_{i-1}`, that sum plus the length of `e_i`), and the child column's
length is the total number of elements. -/
theorem offsetAt_after_appendElement {V : Type} [Inhabited V] (t : TypePtr)
    (es : List (List (Option V))) :
    ∃ c, ArrayColumn.appendAll (ArrayColumn.new t) (es.map some) = .ok c ∧
      c.getLength = es.length ∧
      c.child.getLength = (es.map List.length).sum ∧
      ∀ (i : Nat) (h : i < es.length),
        c.offsetAt i = .ok (((es.take i).map List.length).sum,
          ((es.take i).map List.length).sum + es[i].length) := by
  obtain ⟨c, hc, _, _, hoff, hlen, hoffs, hel, _, _⟩ :=
    ArrayColumn.array_appendAll_spec (es.map some) (ArrayColumn.new t) rfl rfl
  have hlen' : c.length = es.length := by
    rw [hlen]; simp [ArrayColumn.new]
  refine ⟨c, hc, hlen', ?_, ?_⟩
  · show c.delegate.elements.length = _
    rw [hel, totalElements_map_some]
    simp [ArrayColumn.new, SimpleColumn.new]
  · intro i h
    have hr := rangesFrom_map_some es 0 i h
    have hoff0 : c.offset = 0 := by rw [hoff]; rfl
    have hoffs0 : c.delegate.offsets = rangesFrom 0 (es.map some) := by
      rw [hoffs]; simp [ArrayColumn.new, SimpleColumn.new]
    simp only [ArrayColumn.offsetAt, hlen', h, if_true, hoff0, hoffs0, Nat.zero_add,
      List.head?_drop, hr]

/-- Witness for `offsetAt_after_appendElement`, the scenario of the
specification: `ARRAY<INTEGER>` with `appendElement([1, 2])` and
`appendElement([3])`. -/
theorem offsetAt_after_appendElement_witness :
    ∃ c : ArrayColumn Int,
      ArrayColumn.appendAll (ArrayColumn.new (.array (.scalar .INTEGER)))
        [some [some 1, some 2], some [some 3]] = .ok c ∧
      c.offsetAt 0 = .ok (0, 2) ∧ c.offsetAt 1 = .ok (2, 3) ∧ c.child.getLength = 3 := by
  obtain ⟨c, hc, _, hch, hoff⟩ :=
    offsetAt_after_appendElement (.array (.scalar .INTEGER))
      ([[some 1, some 2], [some 3]] : List (List (Option Int)))
  exact ⟨c, hc, hoff 0 (by decide), hoff 1 (by decide), hch⟩

/-! ## Slices of slices -/

/-- C4 (as stated, refuted): on a 4-element column the windows `a = 1`,
`b = 10`, `c2 = 0`, `d2 = 1` satisfy `d2 ≤ b - c2`, the single slice with
offset `a + c2` and length `d2` exists, but the slice of the slice does not,
because the outer slice fails. -/
theorem slice_of_failed_slice :
    SimpleColumn.appendAll SimpleColumn.new [some 10, some 20, some 30, some 40] =
        .ok fourElements ∧
      (1 : Nat) ≤ 10 - 0 ∧
      (fourElements.slice 1 10 >>= fun s => s.slice 0 1) = .error .outOfRange ∧
      ∃ r, fourElements.slice (1 + 0) 1 = .ok r ∧ SimpleColumn.valueAt r 0 = .ok 20 :=
  ⟨rfl, by decide, by decide, _, rfl, by decide⟩

/-- C4 (amended): for every column `c` of any kind, whenever the outer slice
`slice(c, a, b)` exists and the inner window lies inside the outer one
(`c2 + d2 ≤ b`), `slice(slice(c, a, b), c2, d2)` and `slice(c, a + c2, d2)`
both exist and are the same column: offset `a + c2` past the offset of `c`,
length `d2`, and the null flag of `c` at `a + c2 + i` at every position `i`;
on a simple column also the value of `c` at `a + c2 + i`. -/
theorem slice_slice :
    (∀ (S : Type) (c s : BaseColumn S) (a b c2 d2 : Nat),
      c.slice a b = .ok s → c2 + d2 ≤ b →
      ∃ r, s.slice c2 d2 = .ok r ∧ c.slice (a + c2) d2 = .ok r ∧
        r.getOffset = c.getOffset + (a + c2) ∧ r.getLength = d2 ∧
        ∀ i, i < d2 → r.isNullAt i = c.isNullAt (a + c2 + i)) ∧
    (∀ (T : Type) (c s r : SimpleColumn T) (a b c2 d2 : Nat),
      c.slice a b = .ok s → c2 + d2 ≤ b → s.slice c2 d2 = .ok r →
      ∀ i, i < d2 → r.valueAt i = c.valueAt (a + c2 + i)) := by
  constructor
  · intro S c s a b c2 d2 hs hwin
    unfold BaseColumn.slice at hs
    split at hs
    · rename_i hab
      cases hs
      have h2 : a + (c2 + d2) ≤ c.length := by omega
      refine ⟨{ delegate := c.delegate, nulls := c.nulls, offset := c.offset + a + c2,
                length := d2,
                nullCount := BaseColumn.countNulls c.nulls (c.offset + a + c2) d2,
                owning := false }, ?_, ?_, ?_, rfl, ?_⟩
      · simp [BaseColumn.slice, hwin]
      · simp [BaseColumn.slice, h2, Nat.add_assoc]
      · simp [BaseColumn.getOffset, Nat.add_assoc]
      · intro i hi
        have h3 : a + (c2 + i) < c.length := by omega
        simp [BaseColumn.isNullAt, hi, h3, Nat.add_assoc]
    · cases hs
  · intro T c s r a b c2 d2 hs hwin hr i hi
    unfold BaseColumn.slice at hs
    split at hs
    · rename_i hab
      cases hs
      simp only [BaseColumn.slice, hwin, if_true] at hr
      cases hr
      have h3 : a + (c2 + i) < c.length := by omega
      simp [SimpleColumn.valueAt, hi, h3, Nat.add_assoc]
    · cases hs

/-- Witness for `slice_slice`, with the scenario of the specification:
`slice(c, 1, 2)` of a 4-element column has `[0]` equal to `c[1]`. -/
theorem slice_slice_witness :
    ∃ s r : SimpleColumn Int,
      SimpleColumn.appendAll SimpleColumn.new [some 10, some 20, some 30, some 40] =
        .ok fourElements ∧
      fourElements.slice 1 2 = .ok s ∧ s.slice 0 1 = .ok r ∧
      fourElements.slice (1 + 0) 1 = .ok r ∧
      s.valueAt 0 = fourElements.valueAt 1 ∧
      r.valueAt 0 = fourElements.valueAt (1 + 0 + 0) :=
  ⟨_, _, rfl, rfl, rfl, rfl, by decide,
    slice_slice.2 Int fourElements _ _ 1 2 0 1 rfl (by decide) rfl 0 (by decide)⟩

/-! ## Integer appends -/

/-- C5: for each integer kind and every integer argument, `append` either
fully applies or fails without effect.  An argument outside the signed range
of the kind is rejected by the conversion and the column is unchanged; an
argument inside the range is stored, on the owning column, at the old length
(one more element, non-null, earlier positions unchanged); on a slice the call
fails as not appendable and the column is unchanged. -/
theorem appendInt_all_or_nothing (k : IntKind) (self : SimpleColumn Int) (value : Int) :
    (¬ fits k.bits value →
      invoke (fun s => appendInt k s value) self = (self, some .castError)) ∧
    (fits k.bits value → self.owning = false →
      invoke (fun s => appendInt k s value) self = (self, some .notAppendable)) ∧
    (fits k.bits value → self.owning = true →
      ∃ c, invoke (fun s => appendInt k s value) self = (c, none) ∧
        c.getLength = self.getLength + 1 ∧
        c.delegate = self.delegate ++ [value] ∧ c.nulls = self.nulls ++ [false] ∧
        c.getNullCount = self.getNullCount ∧ c.getOffset = self.getOffset ∧
        (self.offset + self.length = self.delegate.length →
          self.offset + self.length = self.nulls.length →
          c.valueAt self.length = .ok value ∧ c.isNullAt self.length = .ok false ∧
          ∀ i, i < self.length →
            c.valueAt i = self.valueAt i ∧ c.isNullAt i = self.isNullAt i)) := by
  refine ⟨?_, ?_, ?_⟩
  · intro h
    simp [invoke, appendInt, pyCastInt, h, bind, Except.bind]
  · intro h ho
    simp [invoke, appendInt, pyCastInt, h, bind, Except.bind, SimpleColumn.append,
      BaseColumn.extend, ho]
  · intro h ho
    refine ⟨{ delegate := self.delegate ++ [value], nulls := self.nulls ++ [false],
              offset := self.offset, length := self.length + 1,
              nullCount := self.nullCount, owning := true }, ?_, ?_, rfl, rfl, ?_, rfl, ?_⟩
    · simp [invoke, appendInt, pyCastInt, h, bind, Except.bind, SimpleColumn.append,
        BaseColumn.extend, ho]
    · simp [BaseColumn.getLength]
    · simp [BaseColumn.getNullCount]
    · intro hd hn
      refine ⟨?_, ?_, ?_⟩
      · simp [SimpleColumn.valueAt, hd]
      · simp [BaseColumn.isNullAt, hn]
      · intro i hi
        have h1 : i < self.length + 1 := by omega
        have h2 : self.offset + i < self.delegate.length := by omega
        have h3 : self.offset + i < self.nulls.length := by omega
        constructor
        · simp [SimpleColumn.valueAt, hi, h1, List.getElem?_append_left, h2]
        · simp [BaseColumn.isNullAt, hi, h1, List.headD_eq_head?_getD,
            List.getElem?_append_left, h3]

/-- The signed range of the 8-bit kind is `[-128, 127]`. -/
theorem tinyint_range :
    fits IntKind.TINYINT.bits (-128) ∧ ¬ fits IntKind.TINYINT.bits (-129) ∧
      fits IntKind.TINYINT.bits 127 ∧ ¬ fits IntKind.TINYINT.bits 128 := by
  decide

/-- Witness for `appendInt_all_or_nothing` on the 8-bit kind: 128 is rejected
and leaves the empty column empty, 127 is stored at position 0. -/
theorem appendInt_all_or_nothing_witness :
    invoke (fun s => appendInt .TINYINT s 128) SimpleColumn.new =
        (SimpleColumn.new, some .castError) ∧
      ∃ c, invoke (fun s => appendInt .TINYINT s 127) SimpleColumn.new = (c, none) ∧
        c.getLength = 1 ∧ c.valueAt 0 = .ok 127 := by
  refine ⟨(appendInt_all_or_nothing .TINYINT SimpleColumn.new 128).1 (by decide), ?_⟩
  obtain ⟨c, hc, hl, _, _, _, _, hv⟩ :=
    (appendInt_all_or_nothing .TINYINT SimpleColumn.new 127).2.2 (by decide) rfl
  exact ⟨c, hc, hl, (hv rfl rfl).1⟩

/-! ## Text columns -/

/-- C6: a text column accepts bytes at append time without validation and
decodes them as strict UTF-8 only when they are read.  Appending any byte
string to an owning column succeeds and stores exactly those bytes; for every
byte string stored at a position, `__getitem__` returns the text whose UTF-8
encoding the bytes are, when there is one, and fails with a decode error when
there is none; appending a valid text and reading it back returns the text. -/
theorem varchar_decode_on_read :
    (∀ (self : SimpleColumn (List Byte)) (data : List Byte), self.owning = true →
      ∃ c, appendVarchar self (.bytes data) = .ok c ∧
        c.delegate = self.delegate ++ [data] ∧ c.getLength = self.getLength + 1) ∧
    (∀ (ops : List (Option (List Byte))) (i : Nat) (data : List Byte),
      ops[i]? = some (some data) →
      ∃ c, SimpleColumn.appendAll SimpleColumn.new ops = .ok c ∧
        (∀ s, encodeUTF8 s = some data → getitem .VARCHAR c i = .ok (.str s)) ∧
        ((∀ s, encodeUTF8 s ≠ some data) → getitem .VARCHAR c i = .error .decodeError)) ∧
    (∀ (s : List Nat) (data : List Byte), encodeUTF8 s = some data →
      ∃ c, appendVarchar SimpleColumn.new (.str s) = .ok c ∧
        getitem .VARCHAR c 0 = .ok (.str s)) := by
  refine ⟨?_, ?_, ?_⟩
  · intro self data ho
    refine ⟨{ delegate := self.delegate ++ [data], nulls := self.nulls ++ [false],
              offset := self.offset, length := self.length + 1,
              nullCount := self.nullCount, owning := true }, ?_, rfl, rfl⟩
    simp [appendVarchar, pyCastString, bind, Except.bind, SimpleColumn.append,
      BaseColumn.extend, ho]
  · intro ops i data h
    obtain ⟨c, hc, _, hv⟩ := SimpleColumn.read_after_appendAll ops i (some data) h
    have hg : getitem .VARCHAR c i = decoder .VARCHAR data := by
      unfold getitem
      rw [hv]
      rfl
    refine ⟨c, hc, ?_, ?_⟩
    · intro s hs
      rw [hg]
      simp only [decoder, decode_encodeUTF8 s data hs]
    · intro hs
      rw [hg]
      cases hd : decodeUTF8 data with
      | none => simp only [decoder, hd]
      | some s => exact absurd (encode_decodeUTF8 data s hd) (hs s)
  · intro s data hs
    refine ⟨{ delegate := [data], nulls := [false], offset := 0, length := 1,
              nullCount := 0, owning := true }, ?_, ?_⟩
    · simp [appendVarchar, pyCastString, hs, bind, Except.bind, SimpleColumn.append,
        BaseColumn.extend, SimpleColumn.new]
    · simp [getitem, SimpleColumn.valueAt, bind, Except.bind, decoder,
        decode_encodeUTF8 s data hs]

/-- Witness for `varchar_decode_on_read`: the bytes `C3 A9` read back as the
one-letter text U+00E9, the bytes `C0 80` (an overlong form) fail to decode,
and the text U+00E9 U+20AC is read back as appended. -/
theorem varchar_decode_on_read_witness :
    (∃ c, SimpleColumn.appendAll SimpleColumn.new [some [byte 0xC3, byte 0xA9]] = .ok c ∧
      getitem .VARCHAR c 0 = .ok (.str [0xE9])) ∧
    (∃ c, SimpleColumn.appendAll SimpleColumn.new [some [byte 0xC0, byte 0x80]] = .ok c ∧
      getitem .VARCHAR c 0 = .error .decodeError) ∧
    (∃ c, appendVarchar SimpleColumn.new (.str [0xE9, 0x20AC]) = .ok c ∧
      getitem .VARCHAR c 0 = .ok (.str [0xE9, 0x20AC])) := by
  refine ⟨?_, ?_, ?_⟩
  · obtain ⟨c, hc, hok, _⟩ :=
      varchar_decode_on_read.2.1 [some [byte 0xC3, byte 0xA9]] 0 [byte 0xC3, byte 0xA9] rfl
    exact ⟨c, hc, hok [0xE9] (by decide)⟩
  · obtain ⟨c, hc, _, herr⟩ :=
      varchar_decode_on_read.2.1 [some [byte 0xC0, byte 0x80]] 0 [byte 0xC0, byte 0x80] rfl
    refine ⟨c, hc, herr ?_⟩
    intro s hs
    have hd := decode_encodeUTF8 s _ hs
    have hnone : decodeUTF8 [byte 0xC0, byte 0x80] = none := by decide
    rw [hnone] at hd
    cases hd
  · exact varchar_decode_on_read.2.2 [0xE9, 0x20AC]
      [byte 0xC3, byte 0xA9, byte 0xE2, byte 0x82, byte 0xAC] (by decide)

end TorchArrow
